import Mathlib

/-!
Shallow embedding of the ElPh mobility engine (`src/elph/mobility.py`) and
proofs checking the natural-language specification against it.

Real-valued numpy arrays are modelled as functions into `ℝ`; `N × N × 3`
displacement arrays as `ℕ → ℕ → Fin 3 → ℝ` together with the bound `n`
(the number of molecules in the supercell); the unseeded Gaussian draw of
`Mobility.hamiltonian` as an arbitrary matrix argument `G`, so every theorem
quantifying over `G` speaks about every realization.
-/

namespace ElPh

/-- Conversion factor J to eV, `jtoev` at the top of mobility.py. -/
noncomputable def jtoev : ℝ := 6.241509074460763e+18

/-- Elementary charge as imported from scipy.constants (`e`). -/
noncomputable def e_const : ℝ := 1.602176634e-19

/-- Reduced Planck constant as imported from scipy.constants (`hbar`). -/
noncomputable def hbar_const : ℝ := 1.0545718176461565e-34

/-- Boltzmann constant as imported from scipy.constants (`k`). -/
noncomputable def k_const : ℝ := 1.380649e-23

/-- Semantics of `np.isclose(a, b, atol=1e-4)` with numpy's default
`rtol=1e-5`: `|a - b| <= atol + rtol * |b|`. -/
def npIsClose (a b : ℝ) : Prop := |a - b| ≤ 1e-4 + 1e-5 * |b|

open Classical in
/-- Semantics of `np.sign` on one real entry. -/
noncomputable def npSign (x : ℝ) : ℝ := if 0 < x then 1 else if x < 0 then -1 else 0

open Classical in
/-- Numeric value a Python bool takes when compared against a float:
`True` counts as `1`, `False` as `0`. -/
noncomputable def truthVal (P : Prop) : ℝ := if P then 1 else 0

/-- Cell offset `[a, b, c]` added to the unit-cell atoms in
`Mobility.generate_lattice`. -/
def cellShift (a b c : ℕ) : Fin 3 → ℝ := ![(a : ℝ), (b : ℝ), (c : ℝ)]

/-- `Mobility.generate_lattice`: replicate the unit-cell atoms over the
supercell grid, outer loop `a`, then `b`, then `c`, innermost the atoms in
their given order.  The rows of the numpy array `positions` are listed in
exactly the order the loop fills them. -/
def generate_lattice (atoms : List (Fin 3 → ℝ)) (nx ny nz : ℕ) : List (Fin 3 → ℝ) :=
  (List.range nx).flatMap fun a =>
    (List.range ny).flatMap fun b =>
      (List.range nz).flatMap fun c =>
        atoms.map fun p => fun k => p k + cellShift a b c k

/-- Length of a `flatMap` over `List.range` whose pieces all have length `m`. -/
theorem length_flatMap_range {α : Type} (f : ℕ → List α) (m : ℕ)
    (hf : ∀ i, (f i).length = m) (n : ℕ) :
    ((List.range n).flatMap f).length = n * m := by
  induction n with
  | zero => simp
  | succ n ih =>
    rw [List.range_succ, List.flatMap_append, List.length_append, ih]
    simp [hf n, Nat.succ_mul]

/-- Element lookup inside a `flatMap` over `List.range` with uniform piece
length `m`: index `a * m + r` lands in piece `a` at offset `r`. -/
theorem getElem?_flatMap_range {α : Type} (f : ℕ → List α) (m n a r : ℕ)
    (hf : ∀ i, (f i).length = m) (ha : a < n) (hr : r < m) :
    ((List.range n).flatMap f)[a * m + r]? = (f a)[r]? := by
  induction n with
  | zero => omega
  | succ n ih =>
    rw [List.range_succ, List.flatMap_append]
    rcases Nat.lt_or_ge a n with h | h
    · have hidx : a * m + r < ((List.range n).flatMap f).length := by
        rw [length_flatMap_range f m hf n]
        calc a * m + r < a * m + m := Nat.add_lt_add_left hr _
          _ = (a + 1) * m := by ring
          _ ≤ n * m := Nat.mul_le_mul_right m h
      rw [List.getElem?_append_left hidx, ih h]
    · have han : a = n := by omega
      subst han
      have hlen : ((List.range a).flatMap f).length = a * m := length_flatMap_range f m hf a
      have hge : ((List.range a).flatMap f).length ≤ a * m + r := by omega
      rw [List.getElem?_append_right hge, hlen]
      simp [Nat.add_sub_cancel_left]

/-- Concrete one-atom unit cell used by several concrete instantiations. -/
def atomsW : List (Fin 3 → ℝ) := [fun _ => 0]

/-- Truthiness of `dist_vecs[:, :, ax].any()`: some entry of the `n × n`
slice along axis `ax` is nonzero. -/
def anyEntryNZ (n : ℕ) (dv : ℕ → ℕ → Fin 3 → ℝ) (ax : Fin 3) : Prop :=
  ∃ i < n, ∃ j < n, dv i j ax ≠ 0

open Classical in
/-- One loop iteration of `Mobility.dist_pbc` for axis `ax`.  The source tests
`dist_vecs[:, :, i].any() > self.lattice_vecs[i, i] / 2.` — the Python bool
result of `.any()` is compared (as 1 or 0) against half the lattice length —
and on a hit shifts the whole axis slice at once. -/
noncomputable def pbc_axis (n : ℕ) (dv : ℕ → ℕ → Fin 3 → ℝ)
    (L : Fin 3 → Fin 3 → ℝ) (ax : Fin 3) : ℕ → ℕ → Fin 3 → ℝ :=
  if truthVal (anyEntryNZ n dv ax) > L ax ax / 2 then
    fun i j k => if k = ax then dv i j k - L ax ax else dv i j k
  else if truthVal (anyEntryNZ n dv ax) < -(L ax ax / 2) then
    fun i j k => if k = ax then dv i j k + L ax ax else dv i j k
  else dv

/-- `Mobility.dist_pbc`: the axis loop `for i in range(3)` applied to the
displacement array. -/
noncomputable def dist_pbc (n : ℕ) (dv : ℕ → ℕ → Fin 3 → ℝ)
    (L : Fin 3 → Fin 3 → ℝ) : ℕ → ℕ → Fin 3 → ℝ :=
  pbc_axis n (pbc_axis n (pbc_axis n dv L 0) L 1) L 2

theorem truthVal_of_true {P : Prop} (h : P) : truthVal P = 1 := by
  simp [truthVal, h]

theorem truthVal_of_false {P : Prop} (h : ¬P) : truthVal P = 0 := by
  simp [truthVal, h]

theorem truthVal_nonneg (P : Prop) : 0 ≤ truthVal P := by
  by_cases h : P
  · rw [truthVal_of_true h]; norm_num
  · rw [truthVal_of_false h]

theorem truthVal_le_one (P : Prop) : truthVal P ≤ 1 := by
  by_cases h : P
  · rw [truthVal_of_true h]
  · rw [truthVal_of_false h]; norm_num

/-- When neither comparison of the axis pass fires, the pass is the
identity. -/
theorem pbc_axis_eq_self (n : ℕ) (dv : ℕ → ℕ → Fin 3 → ℝ)
    (L : Fin 3 → Fin 3 → ℝ) (ax : Fin 3)
    (h1 : ¬ truthVal (anyEntryNZ n dv ax) > L ax ax / 2)
    (h2 : ¬ truthVal (anyEntryNZ n dv ax) < -(L ax ax / 2)) :
    pbc_axis n dv L ax = dv := by
  rw [pbc_axis, if_neg h1, if_neg h2]

/-- An axis pass with lattice length at least 2 never fires: the bool value
of `.any()` is at most 1, which never exceeds half the lattice length. -/
theorem pbc_axis_of_two_le (n : ℕ) (dv : ℕ → ℕ → Fin 3 → ℝ)
    (L : Fin 3 → Fin 3 → ℝ) (ax : Fin 3) (h : 2 ≤ L ax ax) :
    pbc_axis n dv L ax = dv := by
  refine pbc_axis_eq_self n dv L ax ?_ ?_
  · have := truthVal_le_one (anyEntryNZ n dv ax)
    push_neg
    linarith
  · have := truthVal_nonneg (anyEntryNZ n dv ax)
    push_neg
    linarith

/-- An axis pass leaves every component other than its own axis unchanged. -/
theorem pbc_axis_apply_ne (n : ℕ) (dv : ℕ → ℕ → Fin 3 → ℝ)
    (L : Fin 3 → Fin 3 → ℝ) (ax : Fin 3) (i j : ℕ) (k : Fin 3) (hk : k ≠ ax) :
    pbc_axis n dv L ax i j k = dv i j k := by
  rw [pbc_axis]
  split_ifs <;> simp [hk]

/-- An axis pass shifts its own component uniformly: down by the lattice
length, up by it, or not at all — the same way for every pair. -/
theorem pbc_axis_cases (n : ℕ) (dv : ℕ → ℕ → Fin 3 → ℝ)
    (L : Fin 3 → Fin 3 → ℝ) (ax : Fin 3) :
    (∀ i j, pbc_axis n dv L ax i j ax = dv i j ax - L ax ax) ∨
    (∀ i j, pbc_axis n dv L ax i j ax = dv i j ax + L ax ax) ∨
    (∀ i j, pbc_axis n dv L ax i j ax = dv i j ax) := by
  rw [pbc_axis]
  split_ifs with h1 h2
  · exact Or.inl fun i j => by simp
  · exact Or.inr (Or.inl fun i j => by simp)
  · exact Or.inr (Or.inr fun i j => rfl)

/-- With every diagonal lattice entry at least 2, `dist_pbc` is the
identity. -/
theorem dist_pbc_of_two_le (n : ℕ) (dv : ℕ → ℕ → Fin 3 → ℝ)
    (L : Fin 3 → Fin 3 → ℝ) (h : ∀ k : Fin 3, 2 ≤ L k k) :
    dist_pbc n dv L = dv := by
  rw [dist_pbc, pbc_axis_of_two_le n dv L 0 (h 0), pbc_axis_of_two_le n dv L 1 (h 1),
    pbc_axis_of_two_le n dv L 2 (h 2)]

/-- C10: if every diagonal lattice entry is at least 2 the periodic-boundary
correction returns the displacement array unchanged, and in every case any
shift along an axis is applied uniformly to all pairs at once. -/
theorem dist_pbc_unchanged_and_uniform (n : ℕ) (dv : ℕ → ℕ → Fin 3 → ℝ)
    (L : Fin 3 → Fin 3 → ℝ) :
    ((∀ k : Fin 3, 2 ≤ L k k) → dist_pbc n dv L = dv) ∧
    (∀ ax : Fin 3,
      (∀ i j, dist_pbc n dv L i j ax = dv i j ax - L ax ax) ∨
      (∀ i j, dist_pbc n dv L i j ax = dv i j ax + L ax ax) ∨
      (∀ i j, dist_pbc n dv L i j ax = dv i j ax)) := by
  constructor
  · exact dist_pbc_of_two_le n dv L
  · intro ax
    rcases (by decide : ∀ x : Fin 3, x = 0 ∨ x = 1 ∨ x = 2) ax with hax | hax | hax <;> subst hax
    · have h2 : ∀ i j, dist_pbc n dv L i j 0 = pbc_axis n dv L 0 i j 0 := by
        intro i j
        rw [dist_pbc,
          pbc_axis_apply_ne n (pbc_axis n (pbc_axis n dv L 0) L 1) L 2 i j 0 (by decide),
          pbc_axis_apply_ne n (pbc_axis n dv L 0) L 1 i j 0 (by decide)]
      rcases pbc_axis_cases n dv L 0 with h | h | h
      · exact Or.inl fun i j => by rw [h2 i j, h i j]
      · exact Or.inr (Or.inl fun i j => by rw [h2 i j, h i j])
      · exact Or.inr (Or.inr fun i j => by rw [h2 i j, h i j])
    · have h0 : ∀ i j, pbc_axis n dv L 0 i j 1 = dv i j 1 := fun i j =>
        pbc_axis_apply_ne n dv L 0 i j 1 (by decide)
      have h2 : ∀ i j, dist_pbc n dv L i j 1 = pbc_axis n (pbc_axis n dv L 0) L 1 i j 1 := by
        intro i j
        rw [dist_pbc,
          pbc_axis_apply_ne n (pbc_axis n (pbc_axis n dv L 0) L 1) L 2 i j 1 (by decide)]
      rcases pbc_axis_cases n (pbc_axis n dv L 0) L 1 with h | h | h
      · exact Or.inl fun i j => by rw [h2 i j, h i j, h0 i j]
      · exact Or.inr (Or.inl fun i j => by rw [h2 i j, h i j, h0 i j])
      · exact Or.inr (Or.inr fun i j => by rw [h2 i j, h i j, h0 i j])
    · have h01 : ∀ i j, pbc_axis n (pbc_axis n dv L 0) L 1 i j 2 = dv i j 2 := by
        intro i j
        rw [pbc_axis_apply_ne n (pbc_axis n dv L 0) L 1 i j 2 (by decide),
          pbc_axis_apply_ne n dv L 0 i j 2 (by decide)]
      rcases pbc_axis_cases n (pbc_axis n (pbc_axis n dv L 0) L 1) L 2 with h | h | h
      · exact Or.inl fun i j => by rw [dist_pbc, h i j, h01 i j]
      · exact Or.inr (Or.inl fun i j => by rw [dist_pbc, h i j, h01 i j])
      · exact Or.inr (Or.inr fun i j => by rw [dist_pbc, h i j, h01 i j])

/-- Concrete displacement array for the C10 witness: the zero array on one
molecule. -/
def dvW : ℕ → ℕ → Fin 3 → ℝ := fun _ _ _ => 0

/-- Concrete lattice matrix for the C10 witness, all entries 2. -/
def LW : Fin 3 → Fin 3 → ℝ := fun _ _ => 2

/-- Witness for C10: at a concrete array and lattice with diagonal 2, the
hypothesis of the first part holds and the correction is the identity. -/
theorem dist_pbc_unchanged_and_uniform_witness :
    (∀ k : Fin 3, (2:ℝ) ≤ LW k k) ∧ dist_pbc 1 dvW LW = dvW :=
  ⟨fun _ => le_refl 2,
   (dist_pbc_unchanged_and_uniform 1 dvW LW).1 (fun _ => le_refl 2)⟩

/-- Concrete displacement array for C2: one pair whose x component is 8. -/
def dvC2 : ℕ → ℕ → Fin 3 → ℝ := fun _ _ k => if k = 0 then 8 else 0

/-- Concrete lattice matrix for C2, diagonal length 10. -/
def LC2 : Fin 3 → Fin 3 → ℝ := fun _ _ => 10

/-- C2, behaviour of the code at the failing input: the displacement
component 8 exceeds half the lattice length 10/2 = 5, so the claimed
minimum-image rule would subtract 10 and return -2, but `dist_pbc` returns
the component unchanged: the `.any()` call collapses the slice to the bool
1, and `1 > 5` is false. -/
theorem dist_pbc_failing_input :
    dvC2 0 0 0 > LC2 0 0 / 2 ∧
    dist_pbc 1 dvC2 LC2 0 0 0 = 8 ∧
    (8 : ℝ) ≠ dvC2 0 0 0 - LC2 0 0 := by
  have hA0 : anyEntryNZ 1 dvC2 0 := ⟨0, one_pos, 0, one_pos, by norm_num [dvC2]⟩
  have h0 : pbc_axis 1 dvC2 LC2 0 = dvC2 := by
    refine pbc_axis_eq_self 1 dvC2 LC2 0 ?_ ?_
    · rw [truthVal_of_true hA0]; norm_num [LC2]
    · rw [truthVal_of_true hA0]; norm_num [LC2]
  have hA1 : ¬ anyEntryNZ 1 dvC2 1 := by
    rintro ⟨i, -, j, -, h⟩
    simp [dvC2] at h
  have h1 : pbc_axis 1 dvC2 LC2 1 = dvC2 := by
    refine pbc_axis_eq_self 1 dvC2 LC2 1 ?_ ?_
    · rw [truthVal_of_false hA1]; norm_num [LC2]
    · rw [truthVal_of_false hA1]; norm_num [LC2]
  have hA2 : ¬ anyEntryNZ 1 dvC2 2 := by
    rintro ⟨i, -, j, -, h⟩
    simp [dvC2] at h
  have h2 : pbc_axis 1 dvC2 LC2 2 = dvC2 := by
    refine pbc_axis_eq_self 1 dvC2 LC2 2 ?_ ?_
    · rw [truthVal_of_false hA2]; norm_num [LC2]
    · rw [truthVal_of_false hA2]; norm_num [LC2]
  refine ⟨by norm_num [dvC2, LC2], ?_, by norm_num [dvC2, LC2]⟩
  rw [dist_pbc, h0, h1, h2]
  norm_num [dvC2]

/-- Semantics of `np.linalg.norm` on one 3-vector. -/
noncomputable def npNorm3 (v : Fin 3 → ℝ) : ℝ := Real.sqrt (∑ k, v k ^ 2)

/-- Row `i` of `np.dot(positions, self.lattice_vecs.T)`: the supercell
lattice point of fractional position `p`. -/
noncomputable def latticePoint (L : Fin 3 → Fin 3 → ℝ) (p : Fin 3 → ℝ) : Fin 3 → ℝ :=
  fun k => ∑ l, p l * L k l

/-- `lattice[:, None, :] - lattice[None, :, :]`: all pairwise displacement
vectors. -/
noncomputable def dist_vecs0 (lat : ℕ → Fin 3 → ℝ) : ℕ → ℕ → Fin 3 → ℝ :=
  fun i j k => lat i k - lat j k

open Classical in
/-- Stage (a) of the classification in `Mobility.interactions`: the loop
`for idx, d in enumerate(self.distances, start=1)` writes `idx` wherever the
pair distance is close to `d`, later cutoffs overwriting earlier ones; a
pair close to no cutoff keeps code 0. -/
noncomputable def assignCode (dlist : List ℝ) (d : ℝ) : ℕ :=
  (List.range dlist.length).foldl
    (fun acc idx => if npIsClose d (dlist.getD idx 0) then idx + 1 else acc) 0

open Classical in
/-- Stages (a), (b), (c) of `Mobility.interactions` for one pair `(i, j)`:
cutoff classification from the corrected displacement norm, the
translation-distance override to code 3 computed from the uncorrected
lattice points, and the sign refinement of type-1 pairs on the transport
plane axes `p`, `q`. -/
noncomputable def interaction_code (lat : ℕ → Fin 3 → ℝ) (dv : ℕ → ℕ → Fin 3 → ℝ)
    (dlist : List ℝ) (td : ℝ) (p q : Fin 3) (i j : ℕ) : ℕ :=
  let c1 := assignCode dlist (npNorm3 (dv i j))
  let c2 := if npIsClose (npNorm3 (fun k => lat i k - lat j k)) td then 3 else c1
  if c2 = 1 then (if npSign (dv i j p) ≠ npSign (dv i j q) then 1 else 2) else c2

/-- The interaction matrix of `Mobility.interactions`: positions from
`generate_lattice`, Cartesian lattice points, pairwise displacements, the
periodic correction `dist_pbc`, then the three classification stages. -/
noncomputable def interactions_matrix (atoms : List (Fin 3 → ℝ)) (nx ny nz : ℕ)
    (L : Fin 3 → Fin 3 → ℝ) (dlist : List ℝ) (td : ℝ) (p q : Fin 3) : ℕ → ℕ → ℕ :=
  fun i j =>
    interaction_code
      (fun i2 => latticePoint L ((generate_lattice atoms nx ny nz).getD i2 fun _ => 0))
      (dist_pbc (generate_lattice atoms nx ny nz).length
        (dist_vecs0 fun i2 => latticePoint L ((generate_lattice atoms nx ny nz).getD i2 fun _ => 0)) L)
      dlist td p q i j

open Classical in
/-- Effect on one entry of the masked replacements
`M[M==1] = v1; M[M==2] = v2; M[M==3] = v3` of `Mobility.hamiltonian`,
applied in this order to the float copy of the interaction matrix. -/
noncomputable def replace3 (x v1 v2 v3 : ℝ) : ℝ :=
  if (if (if x = 1 then v1 else x) = 2 then v2 else if x = 1 then v1 else x) = 3 then v3
  else if (if x = 1 then v1 else x) = 2 then v2 else if x = 1 then v1 else x

/-- `np.tril(g) + np.tril(g, -1).T`: the symmetrized Gaussian draw. -/
def symmetrize (G : ℕ → ℕ → ℝ) : ℕ → ℕ → ℝ :=
  fun i j => if j ≤ i then G i j else G j i

/-- `sigmaii_matrix = np.diag([self.sigma_ii] * N)` of `Mobility.hamiltonian`.
The source builds this matrix and then never uses it: the returned
Hamiltonian does not contain it. -/
def sigmaii_matrix (sigma_ii : ℝ) : ℕ → ℕ → ℝ :=
  fun i j => if i = j then sigma_ii else 0

/-- Deterministic part of the sampled Hamiltonian: the onsite diagonal
`Hii_matrix = np.diag([self.j_ii] * N)` plus the coupling matrix
`Hij_matrix` obtained from the interaction codes by the masked
replacements. -/
noncomputable def H0_matrix (C : ℕ → ℕ → ℕ) (j_ii v1 v2 v3 : ℝ) : ℕ → ℕ → ℝ :=
  fun i j => (if i = j then j_ii else 0) + replace3 ((C i j : ℕ) : ℝ) v1 v2 v3

/-- `Mobility.hamiltonian` for one realization, the Gaussian draw passed in
as the array `G`:
`H = Hii_matrix + Hij_matrix + sigmaij_matrix * gaussian_matrix`. -/
noncomputable def hamiltonianH (atoms : List (Fin 3 → ℝ)) (nx ny nz : ℕ)
    (L : Fin 3 → Fin 3 → ℝ) (dlist : List ℝ) (td : ℝ) (p q : Fin 3)
    (j_ii j1 j2 j3 s1 s2 s3 : ℝ) (G : ℕ → ℕ → ℝ) : ℕ → ℕ → ℝ :=
  fun i j =>
    H0_matrix (interactions_matrix atoms nx ny nz L dlist td p q) j_ii j1 j2 j3 i j
      + replace3 ((interactions_matrix atoms nx ny nz L dlist td p q i j : ℕ) : ℝ) s1 s2 s3
        * symmetrize G i j

/-- Python exceptions that can surface from `Mobility.hamiltonian`:
`indexError` models the `IndexError` a subscript `self.j_ij[k]` raises on a
short list; `configurationError` models the `ConfigurationError` named by
the specification, which the source never raises. -/
inductive PyError where
  | indexError : PyError
  | configurationError : PyError
deriving DecidableEq

/-- Python list subscript `l[idx]`: the value, or `IndexError` out of
range. -/
def listGet (l : List ℝ) (idx : ℕ) : Except PyError ℝ :=
  match l[idx]? with
  | some x => Except.ok x
  | none => Except.error PyError.indexError

/-- `Mobility.hamiltonian` with the fallible subscripts
`j1 = self.j_ij[0] ... s3 = self.sigma_ij[2]` made explicit: the `j_ij`
entries are read first (lines 172-174), then the `sigma_ij` entries
(lines 180-182). -/
noncomputable def hamiltonianE (atoms : List (Fin 3 → ℝ)) (nx ny nz : ℕ)
    (L : Fin 3 → Fin 3 → ℝ) (dlist : List ℝ) (td : ℝ) (p q : Fin 3)
    (j_ii : ℝ) (j_ij sigma_ij : List ℝ) (G : ℕ → ℕ → ℝ) :
    Except PyError (ℕ → ℕ → ℝ) := do
  let j1 ← listGet j_ij 0
  let j2 ← listGet j_ij 1
  let j3 ← listGet j_ij 2
  let s1 ← listGet sigma_ij 0
  let s2 ← listGet sigma_ij 1
  let s3 ← listGet sigma_ij 2
  pure (hamiltonianH atoms nx ny nz L dlist td p q j_ii j1 j2 j3 s1 s2 s3 G)

theorem replace3_zero (v1 v2 v3 : ℝ) : replace3 0 v1 v2 v3 = 0 := by
  norm_num [replace3]

theorem replace3_one (v1 v2 v3 : ℝ) (h2 : v1 ≠ 2) (h3 : v1 ≠ 3) :
    replace3 1 v1 v2 v3 = v1 := by
  simp [replace3, h2, h3]

theorem replace3_two (v1 v2 v3 : ℝ) (h3 : v2 ≠ 3) : replace3 2 v1 v2 v3 = v2 := by
  norm_num [replace3, h3]

theorem replace3_three (v1 v2 v3 : ℝ) : replace3 3 v1 v2 v3 = v3 := by
  norm_num [replace3]

/-- C4 (amended): for interaction matrices with zero diagonal codes and
off-diagonal codes in 0..3, and couplings with `j_ij[0]` different from the
later type codes 2 and 3 and `j_ij[1]` different from 3, the deterministic
matrix `H0 = Hii_matrix + Hij_matrix` has diagonal equal to the onsite
energy, off-diagonal type-`t` entries equal to `j_ij[t]`, and every other
off-diagonal entry 0.  Without the coupling restriction the sequential
masked replacement re-replaces a coupling value that equals a later type
code. -/
theorem H0_matrix_entries (C : ℕ → ℕ → ℕ) (j_ii j1 j2 j3 : ℝ)
    (hdiag : ∀ i, C i i = 0) (hcode : ∀ i j, C i j ≤ 3)
    (h12 : j1 ≠ 2) (h13 : j1 ≠ 3) (h23 : j2 ≠ 3) :
    (∀ i, H0_matrix C j_ii j1 j2 j3 i i = j_ii) ∧
    (∀ i j, i ≠ j →
      (C i j = 0 → H0_matrix C j_ii j1 j2 j3 i j = 0) ∧
      (C i j = 1 → H0_matrix C j_ii j1 j2 j3 i j = j1) ∧
      (C i j = 2 → H0_matrix C j_ii j1 j2 j3 i j = j2) ∧
      (C i j = 3 → H0_matrix C j_ii j1 j2 j3 i j = j3)) := by
  constructor
  · intro i
    rw [H0_matrix, hdiag i]
    simp [replace3_zero]
  · intro i j hij
    refine ⟨fun h => ?_, fun h => ?_, fun h => ?_, fun h => ?_⟩ <;>
      rw [H0_matrix, if_neg hij, h]
    · simp [replace3_zero]
    · simp [replace3_one j1 j2 j3 h12 h13]
    · simp [replace3_two j1 j2 j3 h23]
    · simp [replace3_three]

/-- Concrete interaction matrix with a single off-diagonal type code 1. -/
def C4x : ℕ → ℕ → ℕ := fun i j => if i = j then 0 else 1

/-- C4 counterexample: with couplings `j_ij = [2, 5, 9]` the off-diagonal
entry of type 1 becomes 5, not `j_ij[0] = 2`, because the masked
replacement first writes 2 and the following `== 2` mask rewrites it
to 5. -/
theorem H0_matrix_collision :
    C4x 0 1 = 1 ∧ H0_matrix C4x 0 2 5 9 0 1 = 5 ∧ (5 : ℝ) ≠ 2 := by
  refine ⟨rfl, ?_, by norm_num⟩
  norm_num [H0_matrix, C4x, replace3]

/-- Witness for C4: the amended theorem applied to the concrete interaction
matrix `C4x` and collision-free couplings `(7, 8, 9)`. -/
theorem H0_matrix_entries_witness :
    ((7:ℝ) ≠ 2 ∧ (7:ℝ) ≠ 3 ∧ (8:ℝ) ≠ 3) ∧
    H0_matrix C4x 5 7 8 9 0 0 = 5 ∧ H0_matrix C4x 5 7 8 9 0 1 = 7 :=
  have h := H0_matrix_entries C4x 5 7 8 9 (fun i => by simp [C4x])
    (fun i j => by simp only [C4x]; split <;> decide)
    (by norm_num) (by norm_num) (by norm_num)
  ⟨⟨by norm_num, by norm_num, by norm_num⟩, h.1 0, (h.2 0 1 (by decide)).2.1 (by decide)⟩

/-- C7 (amended): a coupling or disorder list of fewer than 3 entries makes
the sampler fail with `IndexError` — Python's list subscript error, not the
`ConfigurationError` the spec names — before any Hamiltonian is produced. -/
theorem hamiltonianE_short_lists (atoms : List (Fin 3 → ℝ)) (nx ny nz : ℕ)
    (L : Fin 3 → Fin 3 → ℝ) (dlist : List ℝ) (td : ℝ) (p q : Fin 3)
    (j_ii : ℝ) (j_ij sigma_ij : List ℝ) (G : ℕ → ℕ → ℝ)
    (h : j_ij.length < 3 ∨ sigma_ij.length < 3) :
    hamiltonianE atoms nx ny nz L dlist td p q j_ii j_ij sigma_ij G =
      Except.error PyError.indexError := by
  match j_ij, h with
  | [], _ => simp [hamiltonianE, listGet, Bind.bind, Except.bind]
  | [a], _ => simp [hamiltonianE, listGet, Bind.bind, Except.bind]
  | [a, b], _ => simp [hamiltonianE, listGet, Bind.bind, Except.bind]
  | a :: b :: c :: tl, h =>
    have hs : sigma_ij.length < 3 := by
      rcases h with h | h
      · simp at h
        omega
      · exact h
    match sigma_ij, hs with
    | [], _ => simp [hamiltonianE, listGet, Bind.bind, Except.bind]
    | [x], _ => simp [hamiltonianE, listGet, Bind.bind, Except.bind]
    | [x, y], _ => simp [hamiltonianE, listGet, Bind.bind, Except.bind]

/-- Zero Gaussian draw used by concrete instantiations. -/
def G0 : ℕ → ℕ → ℝ := fun _ _ => 0

/-- Witness for C7: the amended theorem applied to a concrete configuration
whose `j_ij` list is empty. -/
theorem hamiltonianE_short_lists_witness :
    (([] : List ℝ).length < 3 ∨ ([4, 5, 6] : List ℝ).length < 3) ∧
    hamiltonianE atomsW 1 1 1 LW [] 9 0 1 0 [] [4, 5, 6] G0 =
      Except.error PyError.indexError :=
  ⟨Or.inl (by decide),
   hamiltonianE_short_lists atomsW 1 1 1 LW [] 9 0 1 0 [] [4, 5, 6] G0 (Or.inl (by decide))⟩

/-- C7 counterexample: at a concrete configuration with an empty `j_ij`
list the sampler returns `IndexError`, which is not the
`ConfigurationError` the claim requires. -/
theorem hamiltonianE_not_configuration_error :
    hamiltonianE atomsW 1 1 1 LW [] 9 0 1 0 [] [4, 5, 6] G0 =
      Except.error PyError.indexError ∧
    (Except.error PyError.indexError : Except PyError (ℕ → ℕ → ℝ)) ≠
      Except.error PyError.configurationError := by
  constructor
  · simp [hamiltonianE, listGet, Bind.bind, Except.bind]
  · intro h
    exact PyError.noConfusion (Except.error.inj h)

theorem npSign_neg (x : ℝ) : npSign (-x) = -npSign x := by
  unfold npSign
  split_ifs <;> linarith

/-- The three classification stages treat the pair `(i, j)` and the pair
`(j, i)` alike whenever the displacement array is antisymmetric: distances
are norms of opposite vectors, the translation override is symmetric in the
two lattice points, and the sign refinement compares negated signs. -/
theorem interaction_code_symm (lat : ℕ → Fin 3 → ℝ) (dv : ℕ → ℕ → Fin 3 → ℝ)
    (hanti : ∀ i j k, dv i j k = -(dv j i k))
    (dlist : List ℝ) (td : ℝ) (p q : Fin 3) (i j : ℕ) :
    interaction_code lat dv dlist td p q i j = interaction_code lat dv dlist td p q j i := by
  have hnorm : npNorm3 (dv i j) = npNorm3 (dv j i) := by
    have hfun : dv i j = fun k => -(dv j i k) := funext fun k => hanti i j k
    rw [hfun]
    unfold npNorm3
    congr 1
    exact Finset.sum_congr rfl fun k _ => by ring
  have hlat : npNorm3 (fun k => lat i k - lat j k) = npNorm3 (fun k => lat j k - lat i k) := by
    unfold npNorm3
    congr 1
    exact Finset.sum_congr rfl fun k _ => by ring
  have hiff : (npSign (dv i j p) ≠ npSign (dv i j q)) ↔
      (npSign (dv j i p) ≠ npSign (dv j i q)) := by
    rw [hanti i j p, hanti i j q, npSign_neg, npSign_neg]
    exact not_congr neg_inj
  unfold interaction_code
  rw [hnorm, hlat]
  exact if_congr Iff.rfl (if_congr hiff rfl rfl) rfl

/-- Under the large-lattice hypothesis the periodic correction is the
identity, the corrected displacements are antisymmetric, and the whole
interaction matrix is symmetric. -/
theorem interactions_matrix_symm (atoms : List (Fin 3 → ℝ)) (nx ny nz : ℕ)
    (L : Fin 3 → Fin 3 → ℝ) (dlist : List ℝ) (td : ℝ) (p q : Fin 3)
    (hL : ∀ k : Fin 3, 2 ≤ L k k) (i j : ℕ) :
    interactions_matrix atoms nx ny nz L dlist td p q i j =
      interactions_matrix atoms nx ny nz L dlist td p q j i := by
  unfold interactions_matrix
  rw [dist_pbc_of_two_le _ _ _ hL]
  refine interaction_code_symm _ _ ?_ dlist td p q i j
  intro a b k
  show _ - _ = -(_ - _)
  ring

theorem symmetrize_symm (G : ℕ → ℕ → ℝ) (i j : ℕ) :
    symmetrize G i j = symmetrize G j i := by
  unfold symmetrize
  by_cases h1 : j ≤ i
  · by_cases h2 : i ≤ j
    · have hij : i = j := le_antisymm h2 h1
      subst hij
      rfl
    · rw [if_pos h1, if_neg h2]
  · rw [if_neg h1, if_pos (by omega : i ≤ j)]

/-- C1 (amended): for every configuration whose lattice-vector diagonal
entries are all at least 2 — so the spurious whole-array periodic
correction never fires — and for every realization `G`, the sampled
Hamiltonian is exactly symmetric. -/
theorem hamiltonian_symmetric (atoms : List (Fin 3 → ℝ)) (nx ny nz : ℕ)
    (L : Fin 3 → Fin 3 → ℝ) (dlist : List ℝ) (td : ℝ) (p q : Fin 3)
    (j_ii j1 j2 j3 s1 s2 s3 : ℝ) (G : ℕ → ℕ → ℝ)
    (hL : ∀ k : Fin 3, 2 ≤ L k k) (i j : ℕ) :
    hamiltonianH atoms nx ny nz L dlist td p q j_ii j1 j2 j3 s1 s2 s3 G i j =
      hamiltonianH atoms nx ny nz L dlist td p q j_ii j1 j2 j3 s1 s2 s3 G j i := by
  have hC := interactions_matrix_symm atoms nx ny nz L dlist td p q hL i j
  unfold hamiltonianH H0_matrix
  rw [hC, symmetrize_symm G i j,
    show (if i = j then j_ii else 0) = (if j = i then j_ii else 0) from
      if_congr eq_comm rfl rfl]

/-- Witness for C1: the amended theorem applied to a concrete one-atom
configuration with lattice diagonal 2 and the zero draw. -/
theorem hamiltonian_symmetric_witness :
    (∀ k : Fin 3, (2:ℝ) ≤ LW k k) ∧
    hamiltonianH atomsW 1 1 1 LW [] 9 0 1 0 7 8 9 4 5 6 G0 0 1 =
      hamiltonianH atomsW 1 1 1 LW [] 9 0 1 0 7 8 9 4 5 6 G0 1 0 :=
  ⟨fun _ => le_refl 2,
   hamiltonian_symmetric atomsW 1 1 1 LW [] 9 0 1 0 7 8 9 4 5 6 G0
     (fun _ => le_refl 2) 0 1⟩

/-- Two-atom unit cell at fractional positions `(0,0,0)` and `(1/4,0,0)`,
the concrete configuration refuting unconditional Hamiltonian symmetry. -/
noncomputable def atomsX : List (Fin 3 → ℝ) :=
  [fun _ => 0, fun k => if k = 0 then 1/4 else 0]

/-- Cubic lattice with parameter 1 — smaller than 2, so the spurious
whole-array periodic correction fires. -/
def LX : Fin 3 → Fin 3 → ℝ := fun k l => if k = l then 1 else 0

/-- Supercell lattice points of the two-atom configuration. -/
noncomputable def latX : ℕ → Fin 3 → ℝ :=
  fun i2 => latticePoint LX ((generate_lattice atomsX 1 1 1).getD i2 fun _ => 0)

/-- Raw pairwise displacements of the two-atom configuration. -/
noncomputable def dv0X : ℕ → ℕ → Fin 3 → ℝ := dist_vecs0 latX

/-- The displacement array after the axis-0 slice-wide shift by the lattice
length 1. -/
noncomputable def dvsX : ℕ → ℕ → Fin 3 → ℝ :=
  fun i j k => if k = 0 then dv0X i j k - LX 0 0 else dv0X i j k

theorem latX_zero (k : Fin 3) : latX 0 k = 0 := by
  have hg : (generate_lattice atomsX 1 1 1).getD 0 (fun _ => 0)
      = fun l => (fun _ : Fin 3 => (0:ℝ)) l + cellShift 0 0 0 l := rfl
  show latticePoint LX ((generate_lattice atomsX 1 1 1).getD 0 fun _ => 0) k = 0
  rw [latticePoint, hg, Fin.sum_univ_three]
  simp [cellShift, LX]

theorem latX_one_vals : latX 1 0 = 1/4 ∧ latX 1 1 = 0 ∧ latX 1 2 = 0 := by
  have hg : (generate_lattice atomsX 1 1 1).getD 1 (fun _ => 0)
      = fun l => (fun k : Fin 3 => if k = 0 then (1/4:ℝ) else 0) l + cellShift 0 0 0 l := rfl
  refine ⟨?_, ?_, ?_⟩ <;>
  · show latticePoint LX ((generate_lattice atomsX 1 1 1).getD 1 fun _ => 0) _ = _
    rw [latticePoint, hg, Fin.sum_univ_three]
    norm_num [cellShift, LX, Fin.ext_iff]

theorem dv0X_axis0_vals :
    dv0X 0 1 0 = -(1/4) ∧ dv0X 1 0 0 = 1/4 := by
  constructor <;>
  · show latX _ 0 - latX _ 0 = _
    rw [latX_zero, latX_one_vals.1]
    norm_num

theorem dv0X_other_axes (i j : ℕ) (hi : i < 2) (hj : j < 2) :
    dv0X i j 1 = 0 ∧ dv0X i j 2 = 0 := by
  have hv : ∀ a : ℕ, a < 2 → latX a 1 = 0 ∧ latX a 2 = 0 := by
    intro a ha
    interval_cases a
    · exact ⟨latX_zero 1, latX_zero 2⟩
    · exact ⟨latX_one_vals.2.1, latX_one_vals.2.2⟩
  constructor
  · show latX i 1 - latX j 1 = 0
    rw [(hv i hi).1, (hv j hj).1, sub_self]
  · show latX i 2 - latX j 2 = 0
    rw [(hv i hi).2, (hv j hj).2, sub_self]

theorem anyX0 : anyEntryNZ 2 dv0X 0 :=
  ⟨1, by omega, 0, by omega, by rw [dv0X_axis0_vals.2]; norm_num⟩

theorem notAnyX1 : ¬ anyEntryNZ 2 dvsX 1 := by
  rintro ⟨i, hi, j, hj, h⟩
  apply h
  show (if (1 : Fin 3) = 0 then dv0X i j 1 - LX 0 0 else dv0X i j 1) = 0
  rw [if_neg (by decide)]
  exact (dv0X_other_axes i j hi hj).1

theorem notAnyX2 : ¬ anyEntryNZ 2 dvsX 2 := by
  rintro ⟨i, hi, j, hj, h⟩
  apply h
  show (if (2 : Fin 3) = 0 then dv0X i j 2 - LX 0 0 else dv0X i j 2) = 0
  rw [if_neg (by decide)]
  exact (dv0X_other_axes i j hi hj).2

/-- In the two-atom configuration the axis-0 pass fires — the bool 1
exceeds half the lattice length 1/2 — and shifts every pair at once; the
other axes stay. -/
theorem dvX_eq : dist_pbc 2 dv0X LX = dvsX := by
  have hc : truthVal (anyEntryNZ 2 dv0X 0) > LX 0 0 / 2 := by
    rw [truthVal_of_true anyX0]
    norm_num [LX]
  have h0 : pbc_axis 2 dv0X LX 0 = dvsX := by
    rw [pbc_axis, if_pos hc]
    rfl
  have h1 : pbc_axis 2 dvsX LX 1 = dvsX :=
    pbc_axis_eq_self 2 dvsX LX 1
      (by rw [truthVal_of_false notAnyX1]; norm_num [LX])
      (by rw [truthVal_of_false notAnyX1]; norm_num [LX])
  have h2 : pbc_axis 2 dvsX LX 2 = dvsX :=
    pbc_axis_eq_self 2 dvsX LX 2
      (by rw [truthVal_of_false notAnyX2]; norm_num [LX])
      (by rw [truthVal_of_false notAnyX2]; norm_num [LX])
  rw [dist_pbc, h0, h1, h2]

theorem dvsX_vals :
    dvsX 0 1 0 = -(5/4) ∧ dvsX 1 0 0 = -(3/4) ∧
    dvsX 0 1 1 = 0 ∧ dvsX 0 1 2 = 0 ∧ dvsX 1 0 1 = 0 ∧ dvsX 1 0 2 = 0 := by
  refine ⟨?_, ?_, ?_, ?_, ?_, ?_⟩
  · show (if (0 : Fin 3) = 0 then dv0X 0 1 0 - LX 0 0 else dv0X 0 1 0) = -(5/4)
    rw [if_pos rfl, dv0X_axis0_vals.1]
    norm_num [LX]
  · show (if (0 : Fin 3) = 0 then dv0X 1 0 0 - LX 0 0 else dv0X 1 0 0) = -(3/4)
    rw [if_pos rfl, dv0X_axis0_vals.2]
    norm_num [LX]
  · show (if (1 : Fin 3) = 0 then dv0X 0 1 1 - LX 0 0 else dv0X 0 1 1) = 0
    rw [if_neg (by decide)]
    exact (dv0X_other_axes 0 1 (by omega) (by omega)).1
  · show (if (2 : Fin 3) = 0 then dv0X 0 1 2 - LX 0 0 else dv0X 0 1 2) = 0
    rw [if_neg (by decide)]
    exact (dv0X_other_axes 0 1 (by omega) (by omega)).2
  · show (if (1 : Fin 3) = 0 then dv0X 1 0 1 - LX 0 0 else dv0X 1 0 1) = 0
    rw [if_neg (by decide)]
    exact (dv0X_other_axes 1 0 (by omega) (by omega)).1
  · show (if (2 : Fin 3) = 0 then dv0X 1 0 2 - LX 0 0 else dv0X 1 0 2) = 0
    rw [if_neg (by decide)]
    exact (dv0X_other_axes 1 0 (by omega) (by omega)).2

theorem normX01 : npNorm3 (dvsX 0 1) = 5/4 := by
  rw [npNorm3, Fin.sum_univ_three, dvsX_vals.1, dvsX_vals.2.2.1, dvsX_vals.2.2.2.1,
    show (-(5/4:ℝ)) ^ 2 + (0:ℝ) ^ 2 + (0:ℝ) ^ 2 = (5/4) ^ 2 by norm_num]
  exact Real.sqrt_sq (by norm_num)

theorem normX10 : npNorm3 (dvsX 1 0) = 3/4 := by
  rw [npNorm3, Fin.sum_univ_three, dvsX_vals.2.1, dvsX_vals.2.2.2.2.1, dvsX_vals.2.2.2.2.2,
    show (-(3/4:ℝ)) ^ 2 + (0:ℝ) ^ 2 + (0:ℝ) ^ 2 = (3/4) ^ 2 by norm_num]
  exact Real.sqrt_sq (by norm_num)

theorem normlatX01 : npNorm3 (fun k => latX 0 k - latX 1 k) = 1/4 := by
  rw [npNorm3, Fin.sum_univ_three]
  rw [show latX 0 0 - latX 1 0 = -(1/4) by rw [latX_zero, latX_one_vals.1]; norm_num,
    show latX 0 1 - latX 1 1 = 0 by rw [latX_zero, latX_one_vals.2.1]; norm_num,
    show latX 0 2 - latX 1 2 = 0 by rw [latX_zero, latX_one_vals.2.2]; norm_num,
    show (-(1/4:ℝ)) ^ 2 + (0:ℝ) ^ 2 + (0:ℝ) ^ 2 = (1/4) ^ 2 by norm_num]
  exact Real.sqrt_sq (by norm_num)

theorem normlatX10 : npNorm3 (fun k => latX 1 k - latX 0 k) = 1/4 := by
  rw [npNorm3, Fin.sum_univ_three]
  rw [show latX 1 0 - latX 0 0 = 1/4 by rw [latX_zero, latX_one_vals.1]; norm_num,
    show latX 1 1 - latX 0 1 = 0 by rw [latX_zero, latX_one_vals.2.1]; norm_num,
    show latX 1 2 - latX 0 2 = 0 by rw [latX_zero, latX_one_vals.2.2]; norm_num,
    show ((1/4:ℝ)) ^ 2 + (0:ℝ) ^ 2 + (0:ℝ) ^ 2 = (1/4) ^ 2 by norm_num]
  exact Real.sqrt_sq (by norm_num)

theorem npIsClose_refl (b : ℝ) : npIsClose b b := by
  rw [npIsClose, sub_self, abs_zero]
  positivity

/-- A pair of values further apart than the tolerance is not close. -/
theorem not_isclose_of_gap {a b : ℝ} (hb : 0 ≤ b)
    (hgap : 1e-4 + 1e-5 * b < b - a) : ¬ npIsClose a b := by
  intro h
  rw [npIsClose, abs_sub_comm, abs_of_nonneg (by linarith), abs_of_nonneg hb] at h
  linarith

theorem assignX_hit : assignCode [(5/4 : ℝ)] (5/4) = 1 := by
  rw [assignCode, show List.range [(5/4 : ℝ)].length = [0] from rfl]
  simp only [List.foldl_cons, List.foldl_nil]
  rw [show [(5/4 : ℝ)].getD 0 0 = 5/4 from rfl, if_pos (npIsClose_refl (5/4))]

theorem assignX_miss : assignCode [(5/4 : ℝ)] (3/4) = 0 := by
  rw [assignCode, show List.range [(5/4 : ℝ)].length = [0] from rfl]
  simp only [List.foldl_cons, List.foldl_nil]
  rw [show [(5/4 : ℝ)].getD 0 0 = 5/4 from rfl,
    if_neg (not_isclose_of_gap (by norm_num) (by norm_num))]

theorem tdX_miss : ¬ npIsClose (1/4 : ℝ) 9 :=
  not_isclose_of_gap (by norm_num) (by norm_num)

/-- Interaction code of the ordered pair `(0, 1)` in the two-atom
configuration: the corrected distance 5/4 matches the single cutoff, the
translation override misses, and the sign refinement keeps code 1. -/
theorem codeX01 : interactions_matrix atomsX 1 1 1 LX [5/4] 9 0 1 0 1 = 1 := by
  show interaction_code latX
    (dist_pbc (generate_lattice atomsX 1 1 1).length dv0X LX) [5/4] 9 0 1 0 1 = 1
  rw [show (generate_lattice atomsX 1 1 1).length = 2 from rfl, dvX_eq]
  simp only [interaction_code]
  rw [normX01, normlatX01, assignX_hit, if_neg tdX_miss, if_pos rfl,
    dvsX_vals.1, dvsX_vals.2.2.1]
  rw [if_pos (show npSign (-(5/4:ℝ)) ≠ npSign (0:ℝ) from by norm_num [npSign])]

/-- Interaction code of the ordered pair `(1, 0)` in the two-atom
configuration: after the slice-wide shift its distance is 3/4, which
matches nothing, so the code is 0 — the interaction matrix is not
symmetric. -/
theorem codeX10 : interactions_matrix atomsX 1 1 1 LX [5/4] 9 0 1 1 0 = 0 := by
  show interaction_code latX
    (dist_pbc (generate_lattice atomsX 1 1 1).length dv0X LX) [5/4] 9 0 1 1 0 = 0
  rw [show (generate_lattice atomsX 1 1 1).length = 2 from rfl, dvX_eq]
  simp only [interaction_code]
  rw [normX10, normlatX10, assignX_miss, if_neg tdX_miss,
    if_neg (show (0 : ℕ) ≠ 1 by decide)]

/-- C1 counterexample: a valid two-atom configuration with cubic lattice
parameter 1 (all couplings deterministic: `sigma_ij = 0`, so the draw is
irrelevant) whose sampled Hamiltonian has `H[0,1] = 7` but `H[1,0] = 0` —
the Hamiltonian returned by the sampler is not symmetric. -/
theorem hamiltonian_asymmetric :
    hamiltonianH atomsX 1 1 1 LX [5/4] 9 0 1 0 7 8 9 0 0 0 G0 0 1 = 7 ∧
    hamiltonianH atomsX 1 1 1 LX [5/4] 9 0 1 0 7 8 9 0 0 0 G0 1 0 = 0 ∧
    hamiltonianH atomsX 1 1 1 LX [5/4] 9 0 1 0 7 8 9 0 0 0 G0 0 1 ≠
      hamiltonianH atomsX 1 1 1 LX [5/4] 9 0 1 0 7 8 9 0 0 0 G0 1 0 := by
  have h01 : hamiltonianH atomsX 1 1 1 LX [5/4] 9 0 1 0 7 8 9 0 0 0 G0 0 1 = 7 := by
    unfold hamiltonianH H0_matrix
    rw [codeX01]
    norm_num [replace3, symmetrize, G0]
  have h10 : hamiltonianH atomsX 1 1 1 LX [5/4] 9 0 1 0 7 8 9 0 0 0 G0 1 0 = 0 := by
    unfold hamiltonianH H0_matrix
    rw [codeX10]
    norm_num [replace3, symmetrize, G0]
  exact ⟨h01, h10, by rw [h01, h10]; norm_num⟩

/-- Supercell lattice points of the one-atom configuration with lattice
matrix `LW`. -/
noncomputable def latY : ℕ → Fin 3 → ℝ :=
  fun i2 => latticePoint LW ((generate_lattice atomsW 1 1 1).getD i2 fun _ => 0)

/-- Raw pairwise displacements of the one-atom configuration. -/
noncomputable def dv0Y : ℕ → ℕ → Fin 3 → ℝ := dist_vecs0 latY

/-- Gaussian draw with every entry 1, used to exhibit that the diagonal
disorder never reaches the Hamiltonian. -/
def G1 : ℕ → ℕ → ℝ := fun _ _ => 1

theorem latY_zero (i2 : ℕ) (k : Fin 3) : latY i2 k = 0 := by
  match i2 with
  | 0 =>
    have hg : (generate_lattice atomsW 1 1 1).getD 0 (fun _ => 0)
        = fun l => (fun _ : Fin 3 => (0:ℝ)) l + cellShift 0 0 0 l := rfl
    show latticePoint LW ((generate_lattice atomsW 1 1 1).getD 0 fun _ => 0) k = 0
    rw [latticePoint, hg, Fin.sum_univ_three]
    simp [cellShift]
  | n + 1 =>
    have hg : (generate_lattice atomsW 1 1 1).getD (n + 1) (fun _ => 0)
        = fun _ : Fin 3 => (0:ℝ) := rfl
    show latticePoint LW ((generate_lattice atomsW 1 1 1).getD (n + 1) fun _ => 0) k = 0
    rw [latticePoint, hg, Fin.sum_univ_three]
    simp

/-- Every interaction code of the one-atom configuration is 0: all
distances are 0 and match neither the cutoff 5/4 nor the translation
distance 9. -/
theorem codeY (i j : ℕ) : interactions_matrix atomsW 1 1 1 LW [5/4] 9 0 1 i j = 0 := by
  show interaction_code latY
    (dist_pbc (generate_lattice atomsW 1 1 1).length dv0Y LW) [5/4] 9 0 1 i j = 0
  rw [dist_pbc_of_two_le _ _ _ (fun _ => le_refl 2)]
  simp only [interaction_code]
  have hdz : dv0Y i j = fun _ : Fin 3 => (0:ℝ) := by
    funext k
    show latY i k - latY j k = 0
    rw [latY_zero, latY_zero, sub_self]
  have hlz : (fun k => latY i k - latY j k) = fun _ : Fin 3 => (0:ℝ) := by
    funext k
    rw [latY_zero, latY_zero, sub_self]
  have hnz : npNorm3 (fun _ : Fin 3 => (0:ℝ)) = 0 := by
    rw [npNorm3, Fin.sum_univ_three]
    norm_num
  rw [hdz, hlz, hnz]
  rw [if_neg (not_isclose_of_gap (by norm_num) (by norm_num) :
      ¬ npIsClose (0:ℝ) 9),
    show assignCode [(5/4 : ℝ)] 0 = 0 from by
      rw [assignCode, show List.range [(5/4 : ℝ)].length = [0] from rfl]
      simp only [List.foldl_cons, List.foldl_nil]
      rw [show [(5/4 : ℝ)].getD 0 0 = 5/4 from rfl,
        if_neg (not_isclose_of_gap (by norm_num) (by norm_num))],
    if_neg (show (0 : ℕ) ≠ 1 by decide)]

/-- C3, behaviour of the code at the failing input: with onsite energy 0,
onsite disorder magnitude `sigma_ii = 1` and the all-ones draw, the claim
says the diagonal entry should be `0 + 1 * 1 = 1`, but the sampled
Hamiltonian has diagonal 0: the matrix `sigmaii_matrix` built from
`sigma_ii` is dead code and never enters `H`. -/
theorem hamiltonian_diag_drops_sigmaii :
    hamiltonianH atomsW 1 1 1 LW [5/4] 9 0 1 0 7 8 9 4 5 6 G1 0 0 = 0 ∧
    (0 : ℝ) + sigmaii_matrix 1 0 0 * G1 0 0 = 1 ∧
    hamiltonianH atomsW 1 1 1 LW [5/4] 9 0 1 0 7 8 9 4 5 6 G1 0 0 ≠
      (0 : ℝ) + sigmaii_matrix 1 0 0 * G1 0 0 := by
  have hH : hamiltonianH atomsW 1 1 1 LW [5/4] 9 0 1 0 7 8 9 4 5 6 G1 0 0 = 0 := by
    unfold hamiltonianH H0_matrix
    rw [codeY 0 0]
    norm_num [replace3, symmetrize, G1]
  have hclaim : (0 : ℝ) + sigmaii_matrix 1 0 0 * G1 0 0 = 1 := by
    norm_num [sigmaii_matrix, G1]
  exact ⟨hH, hclaim, by rw [hH, hclaim]; norm_num⟩

/-- One axis of `Mobility.localization`, given the eigendecomposition
`energies, eigenvecs` of the Hamiltonian and the diagonal of the position
operator for that axis.  Mirrors the source line by line: `factor` is `-1`
for holes and `1` for electrons, `weights = exp(-factor * energies * beta)`,
`mxX = eigenvecs.conj().T @ operx @ eigenvecs` (real arrays, so `conj` is the
identity), `mxX *= eng_diff`, and the numpy broadcast `weights * np.abs(mxX)**2`
multiplies column `b` of the matrix by `weights[b]`. -/
noncomputable def localization_axis (n : ℕ) (energies : Fin n → ℝ)
    (eigenvecs : Matrix (Fin n) (Fin n) ℝ) (posax : Fin n → ℝ)
    (temp inverse_htau : ℝ) (is_hole : Bool) : ℝ :=
  (∑ a, ∑ b,
      Real.exp (-(if is_hole then (-1:ℝ) else 1) * energies b * (1 / (k_const * jtoev * temp))) *
        |(eigenvecs.transpose * Matrix.diagonal posax * eigenvecs) a b *
          (energies a - energies b)| ^ 2 * 2 /
        (inverse_htau ^ 2 + (energies a - energies b) ^ 2)) /
    ∑ m, Real.exp (-(if is_hole then (-1:ℝ) else 1) * energies m * (1 / (k_const * jtoev * temp)))

/-- Modelled from the spec for comparison with `localization_axis`: the
formula of section 4.4 written exactly as the spec states it, with Boltzmann
weight `w_n = exp(s * beta * E_n)` attached to the row index `n`, sign
`s = +1` for holes and `-1` for electrons, and
`L^2 = (1/Z) * sum_{n,m} w_n * |M[n,m]|^2 * 2 / (Gamma^2 + dE[n,m]^2)`. -/
noncomputable def localization_spec (n : ℕ) (energies : Fin n → ℝ)
    (eigenvecs : Matrix (Fin n) (Fin n) ℝ) (posax : Fin n → ℝ)
    (temp inverse_htau : ℝ) (is_hole : Bool) : ℝ :=
  (∑ a, ∑ b,
      Real.exp ((if is_hole then (1:ℝ) else -1) * (1 / (k_const * jtoev * temp)) * energies a) *
        |(eigenvecs.transpose * Matrix.diagonal posax * eigenvecs) a b *
          (energies a - energies b)| ^ 2 * 2 /
        (inverse_htau ^ 2 + (energies a - energies b) ^ 2)) /
    ∑ m, Real.exp ((if is_hole then (1:ℝ) else -1) * (1 / (k_const * jtoev * temp)) * energies m)

/-- The transformed position operator in the eigenbasis is a symmetric
matrix, whatever real matrix of eigenvectors is used. -/
theorem eigenbasis_position_symm (n : ℕ) (eigenvecs : Matrix (Fin n) (Fin n) ℝ)
    (posax : Fin n → ℝ) (a b : Fin n) :
    (eigenvecs.transpose * Matrix.diagonal posax * eigenvecs) a b =
      (eigenvecs.transpose * Matrix.diagonal posax * eigenvecs) b a := by
  have h : (eigenvecs.transpose * Matrix.diagonal posax * eigenvecs).transpose =
      eigenvecs.transpose * Matrix.diagonal posax * eigenvecs := by
    rw [Matrix.transpose_mul, Matrix.transpose_mul, Matrix.transpose_transpose,
      Matrix.diagonal_transpose, Matrix.mul_assoc]
  calc (eigenvecs.transpose * Matrix.diagonal posax * eigenvecs) a b
      = (eigenvecs.transpose * Matrix.diagonal posax * eigenvecs).transpose b a := rfl
    _ = (eigenvecs.transpose * Matrix.diagonal posax * eigenvecs) b a := by rw [h]

/-- C5: for every eigensystem, position-operator diagonal, temperature,
broadening and carrier sign, the localization computation of the code equals
the spec formula with weight `w_n = exp(s * beta * E_n)` on the row index:
the numpy broadcast attaches the weight to the column index instead, but the
two double sums agree because the transformed position operator is symmetric
and the energy difference enters through even functions. -/
theorem localization_axis_matches_spec (n : ℕ) (energies : Fin n → ℝ)
    (eigenvecs : Matrix (Fin n) (Fin n) ℝ) (posax : Fin n → ℝ)
    (temp inverse_htau : ℝ) (is_hole : Bool) :
    localization_axis n energies eigenvecs posax temp inverse_htau is_hole =
      localization_spec n energies eigenvecs posax temp inverse_htau is_hole := by
  rw [localization_axis, localization_spec]
  have hw : ∀ m : Fin n,
      Real.exp (-(if is_hole then (-1:ℝ) else 1) * energies m * (1 / (k_const * jtoev * temp)))
        = Real.exp ((if is_hole then (1:ℝ) else -1) * (1 / (k_const * jtoev * temp)) * energies m) := by
    intro m
    congr 1
    cases is_hole <;> simp <;> ring
  have hF : ∀ a b : Fin n,
      |(eigenvecs.transpose * Matrix.diagonal posax * eigenvecs) a b *
          (energies a - energies b)| ^ 2 * 2 /
        (inverse_htau ^ 2 + (energies a - energies b) ^ 2)
      = |(eigenvecs.transpose * Matrix.diagonal posax * eigenvecs) b a *
          (energies b - energies a)| ^ 2 * 2 /
        (inverse_htau ^ 2 + (energies b - energies a) ^ 2) := by
    intro a b
    rw [eigenbasis_position_symm n eigenvecs posax a b,
      show energies a - energies b = -(energies b - energies a) by ring, mul_neg, abs_neg,
      neg_sq]
  congr 1
  · calc
      (∑ a, ∑ b,
          Real.exp (-(if is_hole then (-1:ℝ) else 1) * energies b * (1 / (k_const * jtoev * temp))) *
            |(eigenvecs.transpose * Matrix.diagonal posax * eigenvecs) a b *
              (energies a - energies b)| ^ 2 * 2 /
            (inverse_htau ^ 2 + (energies a - energies b) ^ 2))
        = ∑ b, ∑ a,
            Real.exp (-(if is_hole then (-1:ℝ) else 1) * energies b * (1 / (k_const * jtoev * temp))) *
              |(eigenvecs.transpose * Matrix.diagonal posax * eigenvecs) a b *
                (energies a - energies b)| ^ 2 * 2 /
              (inverse_htau ^ 2 + (energies a - energies b) ^ 2) := Finset.sum_comm
      _ = ∑ b, ∑ a,
            Real.exp ((if is_hole then (1:ℝ) else -1) * (1 / (k_const * jtoev * temp)) * energies b) *
              |(eigenvecs.transpose * Matrix.diagonal posax * eigenvecs) b a *
                (energies b - energies a)| ^ 2 * 2 /
              (inverse_htau ^ 2 + (energies b - energies a) ^ 2) := by
          refine Finset.sum_congr rfl fun b _ => Finset.sum_congr rfl fun a _ => ?_
          rw [hw b, mul_assoc, mul_div_assoc, hF a b, ← mul_div_assoc, ← mul_assoc]
  · exact Finset.sum_congr rfl fun m _ => hw m

/-- Scattering time `tau = hbar * jtoev / inverse_htau` of
`Mobility.tlt_mobility`. -/
noncomputable def tau_of (inverse_htau : ℝ) : ℝ := hbar_const * jtoev / inverse_htau

/-- `Mobility.tlt_mobility` given the two averaged squared localization
lengths: returns `(avglx2, avgly2, mobilityx, mobilityy, mobility_average)`. -/
noncomputable def tlt_mobility (avglx2 avgly2 inverse_htau temp : ℝ) :
    ℝ × ℝ × ℝ × ℝ × ℝ :=
  (avglx2, avgly2,
   1e-16 * e_const * avglx2 / (2 * tau_of inverse_htau * k_const * temp),
   1e-16 * e_const * avgly2 / (2 * tau_of inverse_htau * k_const * temp),
   1e-16 * e_const * 0.5 * (avglx2 + avgly2) / (2 * tau_of inverse_htau * k_const * temp))

/-- C8: for a unit cell of `K` atoms and supercell counts all at least 1, the
lattice builder returns exactly `K * nx * ny * nz` rows, and the row at index
`((a * ny + b) * nz + c) * K + t` is atom `t` shifted by the cell offset
`(a, b, c)` — the deterministic order with outer loops over `a`, `b`, `c` and
the unit-cell atoms innermost. -/
theorem generate_lattice_rows (atoms : List (Fin 3 → ℝ)) (nx ny nz a b c t : ℕ)
    (hnx : 1 ≤ nx) (hny : 1 ≤ ny) (hnz : 1 ≤ nz)
    (ha : a < nx) (hb : b < ny) (hc : c < nz) (ht : t < atoms.length) :
    (generate_lattice atoms nx ny nz).length = atoms.length * (nx * ny * nz) ∧
    (generate_lattice atoms nx ny nz)[((a * ny + b) * nz + c) * atoms.length + t]? =
      (atoms[t]?).map (fun p => fun k => p k + cellShift a b c k) := by
  set K := atoms.length with hK
  have hinner : ∀ x y z : ℕ, ((atoms.map fun p => fun k => p k + cellShift x y z k)).length = K := by
    intro x y z; simp [hK]
  have hlenz : ∀ x y : ℕ,
      ((List.range nz).flatMap fun z => atoms.map fun p => fun k => p k + cellShift x y z k).length
        = nz * K := by
    intro x y; exact length_flatMap_range _ K (fun z => hinner x y z) nz
  have hleny : ∀ x : ℕ,
      ((List.range ny).flatMap fun y => (List.range nz).flatMap fun z =>
        atoms.map fun p => fun k => p k + cellShift x y z k).length = ny * (nz * K) := by
    intro x; exact length_flatMap_range _ (nz * K) (fun y => hlenz x y) ny
  constructor
  · have := length_flatMap_range
      (fun x => (List.range ny).flatMap fun y => (List.range nz).flatMap fun z =>
        atoms.map fun p => fun k => p k + cellShift x y z k) (ny * (nz * K)) hleny nx
    rw [generate_lattice, this]; ring
  · have hidx : ((a * ny + b) * nz + c) * K + t
        = a * (ny * (nz * K)) + (b * (nz * K) + (c * K + t)) := by ring
    have hr1 : b * (nz * K) + (c * K + t) < ny * (nz * K) := by
      have h1 : c * K + t < nz * K := by
        calc c * K + t < c * K + K := Nat.add_lt_add_left ht _
          _ = (c + 1) * K := by ring
          _ ≤ nz * K := Nat.mul_le_mul_right K hc
      calc b * (nz * K) + (c * K + t) < b * (nz * K) + nz * K := Nat.add_lt_add_left h1 _
        _ = (b + 1) * (nz * K) := by ring
        _ ≤ ny * (nz * K) := Nat.mul_le_mul_right (nz * K) hb
    have hr2 : c * K + t < nz * K := by
      calc c * K + t < c * K + K := Nat.add_lt_add_left ht _
        _ = (c + 1) * K := by ring
        _ ≤ nz * K := Nat.mul_le_mul_right K hc
    rw [generate_lattice, hidx,
      getElem?_flatMap_range _ (ny * (nz * K)) nx a _ hleny ha hr1,
      getElem?_flatMap_range _ (nz * K) ny b _ (hlenz a) hb hr2,
      getElem?_flatMap_range _ K nz c t (hinner a b) hc ht,
      List.getElem?_map]

/-- Witness for C8: the theorem applied to a concrete one-atom cell with a
`1 × 1 × 1` supercell. -/
theorem generate_lattice_rows_witness :
    (1 ≤ 1 ∧ 0 < 1 ∧ 0 < atomsW.length) ∧
    ((generate_lattice atomsW 1 1 1).length = atomsW.length * (1 * 1 * 1) ∧
     (generate_lattice atomsW 1 1 1)[((0 * 1 + 0) * 1 + 0) * atomsW.length + 0]? =
       (atomsW[0]?).map (fun p => fun k => p k + cellShift 0 0 0 k)) :=
  ⟨⟨le_refl 1, Nat.zero_lt_one, by decide⟩,
   generate_lattice_rows atomsW 1 1 1 0 0 0 0 (le_refl 1) (le_refl 1) (le_refl 1)
     Nat.zero_lt_one Nat.zero_lt_one Nat.zero_lt_one (by decide)⟩

/-- C9: when the two averaged squared localization lengths coincide, the three
mobilities returned by `tlt_mobility` coincide as well. -/
theorem tlt_mobility_symmetric (L2 inverse_htau temp : ℝ) :
    (tlt_mobility L2 L2 inverse_htau temp).2.2.1 =
      (tlt_mobility L2 L2 inverse_htau temp).2.2.2.1 ∧
    (tlt_mobility L2 L2 inverse_htau temp).2.2.2.1 =
      (tlt_mobility L2 L2 inverse_htau temp).2.2.2.2 := by
  constructor
  · rfl
  · show 1e-16 * e_const * L2 / (2 * tau_of inverse_htau * k_const * temp)
      = 1e-16 * e_const * 0.5 * (L2 + L2) / (2 * tau_of inverse_htau * k_const * temp)
    ring

end ElPh
